import Mathlib

/-!
Verification development for the DepFinder language-detection and
dependency-extraction engine.  Each section shallowly embeds one part of
the source (scoring utilities, detection orchestrator, analyzers, cache,
dependency-file line parsing) as executable Lean definitions, and proves
the specified properties about them.  Numbers that the source manipulates
as JS doubles are modelled as rationals; JS string truthiness is modelled
as the string being nonempty.
-/

namespace DepFinder

/-! ## Data model (types.ts) -/

structure FileExtensionResult where
  extension : String
  count : Nat
  percentage : ℚ
  language : String
deriving DecidableEq, Repr

structure ConfigFileResult where
  filePath : String
  language : String
  version : Option String := none
  framework : Option String := none
  dependencies : Option (List String) := none
deriving DecidableEq, Repr

structure SourceCodeResult where
  filePath : String
  language : String
  framework : Option String := none
  patterns : List String := []
deriving DecidableEq, Repr

structure DirectoryStructureResult where
  matchedDirectories : List String := []
  matchedPaths : List String := []
  confidence : Option ℚ := none
deriving DecidableEq, Repr

/-- The `details` payload of one piece of detection evidence; the
constructor tag plays the role of the `type` discriminator string, with
which it is kept consistent at every construction site of the source. -/
inductive EvidenceDetails where
  | fileExtension (r : FileExtensionResult)
  | configFile (r : ConfigFileResult)
  | sourceCode (r : SourceCodeResult)
  | directoryStructure (r : DirectoryStructureResult)
deriving DecidableEq, Repr

def evidenceTypeName : EvidenceDetails → String
  | .fileExtension _ => "file-extension"
  | .configFile _ => "config-file"
  | .sourceCode _ => "source-code"
  | .directoryStructure _ => "directory-structure"

structure DetectionEvidence where
  weight : ℚ
  details : EvidenceDetails
deriving DecidableEq, Repr

/-! ## Scoring engine (scoringUtils.ts) -/

/-- ScoringUtils.getItemScore: for now every evidence item scores 1.0. -/
def getItemScore (_ : DetectionEvidence) : ℚ := 1

/-- Append an item to the group of its type key, or start a new group at
the end (JS object insertion order). -/
def addToGroup :
    List (String × List DetectionEvidence) → String → DetectionEvidence →
      List (String × List DetectionEvidence)
  | [], t, it => [(t, [it])]
  | (k, l) :: rest, t, it =>
      if k = t then (k, l ++ [it]) :: rest else (k, l) :: addToGroup rest t it

/-- The `evidenceByType` record built by the initial loop of
ScoringUtils.calculateConfidenceScore. -/
def groupEvidenceByType (evidence : List DetectionEvidence) :
    List (String × List DetectionEvidence) :=
  evidence.foldl (fun acc it => addToGroup acc (evidenceTypeName it.details) it) []

/-- Language carried by an evidence item, as read (with a JS truthiness
check) by ScoringUtils.detectLanguageConflicts. -/
def evidenceLanguage (e : DetectionEvidence) : Option String :=
  match e.details with
  | .fileExtension r => if r.language = "" then none else some r.language
  | .configFile r => if r.language = "" then none else some r.language
  | .sourceCode r => if r.language = "" then none else some r.language
  | .directoryStructure _ => none

/-- JS Set insertion: append if not already present. -/
def insertLang (acc : List String) (l : String) : List String :=
  if l ∈ acc then acc else acc ++ [l]

/-- The `detectedLanguages` set of ScoringUtils.detectLanguageConflicts,
collected over the grouped evidence. -/
def detectedLanguages (groups : List (String × List DetectionEvidence)) :
    List String :=
  groups.foldl
    (fun acc g =>
      g.2.foldl
        (fun acc2 it =>
          match evidenceLanguage it with
          | some l => insertLang acc2 l
          | none => acc2)
        acc)
    []

/-- ScoringUtils.detectLanguageConflicts. -/
def detectLanguageConflicts (groups : List (String × List DetectionEvidence)) :
    List String :=
  if 1 < (detectedLanguages groups).length then ["Multiple languages detected"]
  else []

/-- ScoringUtils.calculateConflictPenalty: 0.2 per detected conflict. -/
def calculateConflictPenalty (groups : List (String × List DetectionEvidence)) :
    ℚ :=
  (detectLanguageConflicts groups).foldl (fun p _ => p + 0.2) 0

/-- The `totalScore` accumulator of calculateConfidenceScore. -/
def totalScore (groups : List (String × List DetectionEvidence)) : ℚ :=
  groups.foldl
    (fun acc g => g.2.foldl (fun a it => a + it.weight * getItemScore it) acc) 0

/-- The `totalWeight` accumulator of calculateConfidenceScore. -/
def totalWeight (groups : List (String × List DetectionEvidence)) : ℚ :=
  groups.foldl (fun acc g => g.2.foldl (fun a it => a + it.weight) acc) 0

/-- The normalized pre-penalty confidence of calculateConfidenceScore
(the weighted mean of item scores). -/
def weightedMean (evidence : List DetectionEvidence) : ℚ :=
  let groups := groupEvidenceByType evidence
  if 0 < totalWeight groups then totalScore groups / totalWeight groups else 0

/-- ScoringUtils.calculateConfidenceScore. -/
def calculateConfidenceScore (evidence : List DetectionEvidence) : ℚ :=
  if evidence = [] then 0
  else
    let groups := groupEvidenceByType evidence
    let confidence :=
      if 0 < totalWeight groups then totalScore groups / totalWeight groups
      else 0
    let penalty := calculateConflictPenalty groups
    max 0 (min 1 (confidence - penalty))

theorem calculateConfidenceScore_eq (evidence : List DetectionEvidence)
    (h : evidence ≠ []) :
    calculateConfidenceScore evidence =
      max 0 (min 1 (weightedMean evidence -
        calculateConflictPenalty (groupEvidenceByType evidence))) := by
  unfold calculateConfidenceScore weightedMean
  simp [h]

/-- C1: calculateConfidenceScore always lies in the closed interval
[0, 1], and on the empty evidence list it is exactly 0. -/
theorem confidence_score_in_unit_interval (evidence : List DetectionEvidence) :
    0 ≤ calculateConfidenceScore evidence ∧
      calculateConfidenceScore evidence ≤ 1 ∧
      calculateConfidenceScore ([] : List DetectionEvidence) = 0 := by
  refine ⟨?_, ?_, rfl⟩ <;> unfold calculateConfidenceScore <;>
    split
  · exact le_refl 0
  · exact le_max_left _ _
  · exact zero_le_one
  · exact max_le zero_le_one (min_le_left _ _)

/-! ### Fold lemmas relating the grouped accumulators to the flat list -/

theorem foldl_add_weight (l : List DetectionEvidence) (a : ℚ) :
    l.foldl (fun acc it => acc + it.weight) a = a + (l.map (·.weight)).sum := by
  induction l generalizing a with
  | nil => simp
  | cons x xs ih => simp [ih, add_assoc]

theorem foldl_add_score (l : List DetectionEvidence) (a : ℚ) :
    l.foldl (fun acc it => acc + it.weight * getItemScore it) a =
      a + (l.map (·.weight)).sum := by
  simp only [getItemScore, mul_one]
  exact foldl_add_weight l a

/-- The grouped weight sum in closed form. -/
theorem totalWeight_eq (gs : List (String × List DetectionEvidence)) :
    totalWeight gs = (gs.map fun g => ((g.2.map (·.weight)).sum)).sum := by
  unfold totalWeight
  suffices h : ∀ (gs : List (String × List DetectionEvidence)) (a : ℚ),
      gs.foldl (fun acc g => g.2.foldl (fun x it => x + it.weight) acc) a =
        a + (gs.map fun g => ((g.2.map (·.weight)).sum)).sum by
    simpa using h gs 0
  intro gs
  induction gs with
  | nil => simp
  | cons g rest ih =>
      intro a
      rw [List.foldl_cons, foldl_add_weight, ih]
      simp [add_assoc]

/-- Since every item scores 1.0, the score accumulator equals the weight
accumulator. -/
theorem totalScore_eq_totalWeight (gs : List (String × List DetectionEvidence)) :
    totalScore gs = totalWeight gs := by
  unfold totalScore totalWeight
  suffices h : ∀ (gs : List (String × List DetectionEvidence)) (a : ℚ),
      gs.foldl (fun acc g =>
        g.2.foldl (fun x it => x + it.weight * getItemScore it) acc) a =
      gs.foldl (fun acc g => g.2.foldl (fun x it => x + it.weight) acc) a by
    exact h gs 0
  intro gs
  induction gs with
  | nil => simp
  | cons g rest ih =>
      intro a
      rw [List.foldl_cons, List.foldl_cons, foldl_add_weight, foldl_add_score,
        ih]

theorem addToGroup_weight (gs : List (String × List DetectionEvidence))
    (t : String) (it : DetectionEvidence) :
    ((addToGroup gs t it).map fun g => ((g.2.map (·.weight)).sum)).sum =
      (gs.map fun g => ((g.2.map (·.weight)).sum)).sum + it.weight := by
  induction gs with
  | nil => simp [addToGroup]
  | cons g rest ih =>
      by_cases h : g.1 = t
      · simp [addToGroup, h, add_assoc, add_comm]
      · simp only [addToGroup]
        rw [if_neg (by simpa using h)]
        simp [ih, add_assoc]

/-- The grouped weight sum is the plain sum of the weights. -/
theorem totalWeight_group (evidence : List DetectionEvidence) :
    totalWeight (groupEvidenceByType evidence) =
      (evidence.map (·.weight)).sum := by
  rw [totalWeight_eq]
  unfold groupEvidenceByType
  suffices h : ∀ (l : List DetectionEvidence)
      (gs : List (String × List DetectionEvidence)),
      ((l.foldl (fun acc x => addToGroup acc (evidenceTypeName x.details) x)
          gs).map fun g => ((g.2.map (·.weight)).sum)).sum =
        (gs.map fun g => ((g.2.map (·.weight)).sum)).sum +
          (l.map (·.weight)).sum by
    simpa using h evidence []
  intro l
  induction l with
  | nil => simp
  | cons x xs ih => intro gs; simp [ih, addToGroup_weight, add_assoc]

/-- Membership in the groups built by groupEvidenceByType is membership
in the original evidence list. -/
theorem exists_in_addToGroup_iff (P : DetectionEvidence → Prop)
    (gs : List (String × List DetectionEvidence)) (t : String)
    (x : DetectionEvidence) :
    (∃ g ∈ addToGroup gs t x, ∃ it ∈ g.2, P it) ↔
      (∃ g ∈ gs, ∃ it ∈ g.2, P it) ∨ P x := by
  induction gs with
  | nil => simp [addToGroup]
  | cons g rest ih =>
      by_cases h : g.1 = t
      · simp only [addToGroup, if_pos h, List.mem_cons]
        constructor
        · rintro ⟨a, (heq | ha), it, hit, hP⟩
          · rw [heq] at hit
            rcases List.mem_append.1 hit with hit | hit
            · exact Or.inl ⟨g, Or.inl rfl, it, hit, hP⟩
            · simp only [List.mem_singleton] at hit
              exact Or.inr (hit ▸ hP)
          · exact Or.inl ⟨a, Or.inr ha, it, hit, hP⟩
        · rintro (⟨a, (heq | ha), it, hit, hP⟩ | hP)
          · rw [heq] at hit
            exact ⟨(g.1, g.2 ++ [x]), Or.inl rfl, it,
              List.mem_append_left _ hit, hP⟩
          · exact ⟨a, Or.inr ha, it, hit, hP⟩
          · exact ⟨(g.1, g.2 ++ [x]), Or.inl rfl, x,
              List.mem_append_right _ (List.mem_singleton_self _), hP⟩
      · simp only [addToGroup, if_neg h, List.mem_cons]
        constructor
        · rintro ⟨a, (heq | ha), it, hit, hP⟩
          · rw [heq] at hit
            exact Or.inl ⟨g, Or.inl rfl, it, hit, hP⟩
          · rcases ih.1 ⟨a, ha, it, hit, hP⟩ with hmem | hPx
            · rcases hmem with ⟨b, hb, it2, hit2, hP2⟩
              exact Or.inl ⟨b, Or.inr hb, it2, hit2, hP2⟩
            · exact Or.inr hPx
        · rintro (⟨a, (heq | ha), it, hit, hP⟩ | hP)
          · rw [heq] at hit
            exact ⟨g, Or.inl rfl, it, hit, hP⟩
          · rcases ih.2 (Or.inl ⟨a, ha, it, hit, hP⟩) with ⟨b, hb, it2, hit2, hP2⟩
            exact ⟨b, Or.inr hb, it2, hit2, hP2⟩
          · rcases ih.2 (Or.inr hP) with ⟨b, hb, it2, hit2, hP2⟩
            exact ⟨b, Or.inr hb, it2, hit2, hP2⟩

theorem exists_in_groups_iff (P : DetectionEvidence → Prop)
    (evidence : List DetectionEvidence) :
    (∃ g ∈ groupEvidenceByType evidence, ∃ it ∈ g.2, P it) ↔
      ∃ it ∈ evidence, P it := by
  unfold groupEvidenceByType
  suffices h : ∀ (l : List DetectionEvidence)
      (gs : List (String × List DetectionEvidence)),
      (∃ g ∈ l.foldl (fun acc x => addToGroup acc (evidenceTypeName x.details) x)
          gs, ∃ it ∈ g.2, P it) ↔
        (∃ g ∈ gs, ∃ it ∈ g.2, P it) ∨ ∃ it ∈ l, P it by
    rw [h evidence []]; simp
  intro l
  induction l with
  | nil => simp
  | cons x xs ih =>
      intro gs
      simp only [List.foldl_cons]
      rw [ih, exists_in_addToGroup_iff]
      constructor
      · rintro (⟨h1 | h2⟩ | ⟨it, hit, hP⟩)
        · exact Or.inl h1
        · exact Or.inr ⟨x, List.mem_cons_self _ _, h2⟩
        · exact Or.inr ⟨it, List.mem_cons_of_mem _ hit, hP⟩
      · rintro (h1 | ⟨it, hit, hP⟩)
        · exact Or.inl (Or.inl h1)
        · rcases List.mem_cons.1 hit with rfl | hit
          · exact Or.inl (Or.inr hP)
          · exact Or.inr ⟨it, hit, hP⟩

/-! ### The detected-language set -/

theorem mem_insertLang (acc : List String) (l x : String) :
    x ∈ insertLang acc l ↔ x ∈ acc ∨ x = l := by
  unfold insertLang
  by_cases h : l ∈ acc
  · simp only [if_pos h]
    constructor
    · exact Or.inl
    · rintro (hx | rfl) <;> [exact hx; exact h]
  · simp [if_neg h]

theorem nodup_insertLang (acc : List String) (l : String) (h : acc.Nodup) :
    (insertLang acc l).Nodup := by
  unfold insertLang
  by_cases hm : l ∈ acc
  · simpa [if_pos hm] using h
  · rw [if_neg hm]
    simp only [List.nodup_append, List.nodup_cons, List.nodup_nil]
    exact ⟨h, by simp, by simpa [List.disjoint_singleton] using hm⟩

theorem mem_langFold (items : List DetectionEvidence) (acc : List String)
    (x : String) :
    x ∈ items.foldl
        (fun acc2 it =>
          match evidenceLanguage it with
          | some l => insertLang acc2 l
          | none => acc2)
        acc ↔
      x ∈ acc ∨ ∃ it ∈ items, evidenceLanguage it = some x := by
  induction items generalizing acc with
  | nil => simp
  | cons y ys ih =>
      simp only [List.foldl_cons]
      rw [ih]
      cases heq : evidenceLanguage y with
      | none =>
          simp only [heq]
          constructor
          · rintro (hx | hex)
            · exact Or.inl hx
            · rcases hex with ⟨it, hit, hP⟩
              exact Or.inr ⟨it, List.mem_cons_of_mem _ hit, hP⟩
          · rintro (hx | ⟨it, hit, hP⟩)
            · exact Or.inl hx
            · rcases List.mem_cons.1 hit with rfl | hit
              · rw [heq] at hP; cases hP
              · exact Or.inr ⟨it, hit, hP⟩
      | some l =>
          simp only [heq, mem_insertLang]
          constructor
          · rintro ((hx | rfl) | hex)
            · exact Or.inl hx
            · exact Or.inr ⟨y, List.mem_cons_self _ _, heq⟩
            · rcases hex with ⟨it, hit, hP⟩
              exact Or.inr ⟨it, List.mem_cons_of_mem _ hit, hP⟩
          · rintro (hx | ⟨it, hit, hP⟩)
            · exact Or.inl (Or.inl hx)
            · rcases List.mem_cons.1 hit with rfl | hit
              · rw [heq] at hP
                exact Or.inl (Or.inr (Option.some_inj.1 hP).symm)
              · exact Or.inr ⟨it, hit, hP⟩

theorem nodup_langFold (items : List DetectionEvidence) (acc : List String)
    (h : acc.Nodup) :
    (items.foldl
        (fun acc2 it =>
          match evidenceLanguage it with
          | some l => insertLang acc2 l
          | none => acc2)
        acc).Nodup := by
  induction items generalizing acc with
  | nil => exact h
  | cons y ys ih =>
      simp only [List.foldl_cons]
      cases heq : evidenceLanguage y with
      | none => simpa [heq] using ih acc h
      | some l => simpa [heq] using ih _ (nodup_insertLang acc l h)

theorem mem_detectedLanguages (gs : List (String × List DetectionEvidence))
    (x : String) :
    x ∈ detectedLanguages gs ↔
      ∃ g ∈ gs, ∃ it ∈ g.2, evidenceLanguage it = some x := by
  unfold detectedLanguages
  suffices h : ∀ (gs : List (String × List DetectionEvidence))
      (acc : List String),
      x ∈ gs.foldl
          (fun acc g =>
            g.2.foldl
              (fun acc2 it =>
                match evidenceLanguage it with
                | some l => insertLang acc2 l
                | none => acc2)
              acc)
          acc ↔
        x ∈ acc ∨ ∃ g ∈ gs, ∃ it ∈ g.2, evidenceLanguage it = some x by
    simpa using h gs []
  intro gs
  induction gs with
  | nil => simp
  | cons g rest ih =>
      intro acc
      simp only [List.foldl_cons]
      rw [ih, mem_langFold]
      constructor
      · rintro ((hx | hex) | ⟨a, ha, hit⟩)
        · exact Or.inl hx
        · exact Or.inr ⟨g, List.mem_cons_self _ _, hex⟩
        · exact Or.inr ⟨a, List.mem_cons_of_mem _ ha, hit⟩
      · rintro (hx | ⟨a, ha, hit⟩)
        · exact Or.inl (Or.inl hx)
        · rcases List.mem_cons.1 ha with heq | ha
          · exact Or.inl (Or.inr (heq ▸ hit))
          · exact Or.inr ⟨a, ha, hit⟩

theorem nodup_detectedLanguages (gs : List (String × List DetectionEvidence)) :
    (detectedLanguages gs).Nodup := by
  unfold detectedLanguages
  suffices h : ∀ (gs : List (String × List DetectionEvidence))
      (acc : List String), acc.Nodup →
      (gs.foldl
          (fun acc g =>
            g.2.foldl
              (fun acc2 it =>
                match evidenceLanguage it with
                | some l => insertLang acc2 l
                | none => acc2)
              acc)
          acc).Nodup by
    exact h gs [] List.nodup_nil
  intro gs
  induction gs with
  | nil => exact fun acc h => h
  | cons g rest ih =>
      intro acc hacc
      simp only [List.foldl_cons]
      exact ih _ (nodup_langFold g.2 acc hacc)

/-- Languages named by the grouped evidence are exactly those named by the
flat evidence list. -/
theorem mem_detectedLanguages_group (evidence : List DetectionEvidence)
    (x : String) :
    x ∈ detectedLanguages (groupEvidenceByType evidence) ↔
      ∃ it ∈ evidence, evidenceLanguage it = some x := by
  rw [mem_detectedLanguages, exists_in_groups_iff]

theorem calculateConflictPenalty_eq
    (gs : List (String × List DetectionEvidence)) :
    calculateConflictPenalty gs =
      if 1 < (detectedLanguages gs).length then 0.2 else 0 := by
  unfold calculateConflictPenalty detectLanguageConflicts
  split
  · simp
  · simp

theorem one_lt_length_of_two_mem {α : Type} {a b : α} {l : List α}
    (ha : a ∈ l) (hb : b ∈ l) (hab : a ≠ b) : 1 < l.length := by
  match l with
  | [] => cases ha
  | [x] =>
      simp only [List.mem_singleton] at ha hb
      exact absurd (ha.trans hb.symm) hab
  | x :: y :: t => simp only [List.length_cons]; omega

theorem exists_two_distinct_of_nodup {α : Type} {l : List α}
    (hn : l.Nodup) (hl : 1 < l.length) :
    ∃ a b, a ∈ l ∧ b ∈ l ∧ a ≠ b := by
  match l with
  | [] => simp at hl
  | [x] => simp at hl
  | x :: y :: t =>
      refine ⟨x, y, List.mem_cons_self _ _,
        List.mem_cons_of_mem _ (List.mem_cons_self _ _), fun hxy => ?_⟩
      exact (List.nodup_cons.1 hn).1 (hxy ▸ List.mem_cons_self _ _)

/-- C2: on non-empty evidence, naming at least two distinct languages
subtracts exactly one flat 0.2 penalty from the weighted mean before
clamping, and naming at most one language subtracts nothing. -/
theorem conflict_penalty_flat (evidence : List DetectionEvidence)
    (h : evidence ≠ []) :
    ((∃ l1 l2 : String, l1 ≠ l2 ∧
        (∃ it ∈ evidence, evidenceLanguage it = some l1) ∧
        (∃ it ∈ evidence, evidenceLanguage it = some l2)) →
      calculateConfidenceScore evidence =
        max 0 (min 1 (weightedMean evidence - 0.2))) ∧
    ((∀ l1 l2 : String,
        (∃ it ∈ evidence, evidenceLanguage it = some l1) →
        (∃ it ∈ evidence, evidenceLanguage it = some l2) → l1 = l2) →
      calculateConfidenceScore evidence =
        max 0 (min 1 (weightedMean evidence))) := by
  constructor
  · rintro ⟨l1, l2, hne, hm1, hm2⟩
    rw [calculateConfidenceScore_eq evidence h, calculateConflictPenalty_eq,
      if_pos]
    exact one_lt_length_of_two_mem
      ((mem_detectedLanguages_group evidence l1).2 hm1)
      ((mem_detectedLanguages_group evidence l2).2 hm2) hne
  · intro huniq
    rw [calculateConfidenceScore_eq evidence h, calculateConflictPenalty_eq,
      if_neg, sub_zero]
    intro hlen
    rcases exists_two_distinct_of_nodup
        (nodup_detectedLanguages (groupEvidenceByType evidence)) hlen with
      ⟨a, b, ha, hb, hab⟩
    exact hab (huniq a b ((mem_detectedLanguages_group evidence a).1 ha)
      ((mem_detectedLanguages_group evidence b).1 hb))

/-- Concrete mixed-language evidence (a Python extension histogram entry
plus a JavaScript config file), used to witness the conflict penalty. -/
def evidenceConflictSample : List DetectionEvidence :=
  [⟨0.4, .fileExtension ⟨".py", 3, 60, "python"⟩⟩,
   ⟨0.7, .configFile ⟨"package.json", "javascript", none, none, none⟩⟩]

theorem conflict_penalty_flat_witness :
    evidenceConflictSample ≠ [] ∧
      calculateConfidenceScore evidenceConflictSample =
        max 0 (min 1 (weightedMean evidenceConflictSample - 0.2)) :=
  ⟨by decide,
    (conflict_penalty_flat evidenceConflictSample (by decide)).1
      ⟨"python", "javascript", by decide, by decide, by decide⟩⟩

/-- C3: on non-empty, positively weighted evidence all naming the same
language, the score is the weighted mean with no penalty, which is
exactly 1 because every item score is fixed at 1.0. -/
theorem single_language_unit_confidence (evidence : List DetectionEvidence)
    (lang : String) (h : evidence ≠ [])
    (hw : ∀ it ∈ evidence, 0 < it.weight)
    (hl : ∀ it ∈ evidence, evidenceLanguage it = some lang) :
    calculateConfidenceScore evidence = weightedMean evidence ∧
      weightedMean evidence = 1 := by
  have hW : 0 < totalWeight (groupEvidenceByType evidence) := by
    rw [totalWeight_group]
    apply List.sum_pos
    · intro w hwmem
      rcases List.mem_map.1 hwmem with ⟨it, hit, rfl⟩
      exact hw it hit
    · simpa using h
  have hmean : weightedMean evidence = 1 := by
    unfold weightedMean
    rw [if_pos hW, totalScore_eq_totalWeight]
    exact div_self (ne_of_gt hW)
  have hpen := (conflict_penalty_flat evidence h).2
    (fun l1 l2 hm1 hm2 => by
      rcases hm1 with ⟨it1, hit1, he1⟩
      rcases hm2 with ⟨it2, hit2, he2⟩
      have e1 := (hl it1 hit1).symm.trans he1
      have e2 := (hl it2 hit2).symm.trans he2
      exact (Option.some_inj.1 e1).symm.trans (Option.some_inj.1 e2))
  rw [hpen, hmean]
  norm_num

/-- Concrete single-language evidence used to witness C3. -/
def evidenceSingleSample : List DetectionEvidence :=
  [⟨0.4, .fileExtension ⟨".py", 3, 100, "python"⟩⟩,
   ⟨0.7, .configFile ⟨"pyproject.toml", "python", some "3.11", none, none⟩⟩]

theorem single_language_unit_confidence_witness :
    evidenceSingleSample ≠ [] ∧
      calculateConfidenceScore evidenceSingleSample =
        weightedMean evidenceSingleSample ∧
      weightedMean evidenceSingleSample = 1 := by
  have h := single_language_unit_confidence evidenceSingleSample "python"
    (by decide) (by intro it hit; fin_cases hit <;> norm_num) (by decide)
  exact ⟨by decide, h.1, h.2⟩

/-! ## Detection orchestrator (get_language_info/index.ts) -/

structure LanguageDetectionResult where
  language : String
  runtimeVersion : Option String := none
  framework : Option String := none
  confidence : ℚ
deriving DecidableEq, Repr

/-- JS truthiness of an optional string field. -/
def truthy : Option String → Bool
  | none => false
  | some s => if s = "" then false else true

/-- One step of the orchestrator's reduce: keep the accumulated best
result unless the current one beats it on confidence, or ties and wins
the runtime-version / framework tie-break. -/
def pickBetter (best current : LanguageDetectionResult) :
    LanguageDetectionResult :=
  if best.confidence < current.confidence then current
  else if current.confidence = best.confidence then
    if truthy current.runtimeVersion && !truthy best.runtimeVersion then
      current
    else if !truthy current.runtimeVersion && truthy best.runtimeVersion then
      best
    else if truthy current.framework && !truthy best.framework then current
    else if !truthy current.framework && truthy best.framework then best
    else best
  else best

def unknownResult : LanguageDetectionResult :=
  { language := "unknown", confidence := 0 }

/-- Detector results kept by the orchestrator loop (confidence > 0). -/
def posResults (rs : List LanguageDetectionResult) :
    List LanguageDetectionResult :=
  rs.filter fun r => decide (0 < r.confidence)

/-- The orchestrator's validity filter. -/
def isValidResult (r : LanguageDetectionResult) : Bool :=
  if 0.7 < r.confidence then true else decide (0.3 < r.confidence)

def validResults (rs : List LanguageDetectionResult) :
    List LanguageDetectionResult :=
  (posResults rs).filter isValidResult

/-- The orchestrator's best-result selection. -/
def selectBestResult (rs : List LanguageDetectionResult) :
    LanguageDetectionResult :=
  if validResults rs ≠ [] then
    (validResults rs).foldl pickBetter ((validResults rs).headD unknownResult)
  else
    (posResults rs).foldl pickBetter ((posResults rs).headD unknownResult)

theorem pickBetter_eq_or (b c : LanguageDetectionResult) :
    pickBetter b c = b ∨ pickBetter b c = c := by
  unfold pickBetter
  split
  · exact Or.inr rfl
  · split
    · split
      · exact Or.inr rfl
      · split
        · exact Or.inl rfl
        · split
          · exact Or.inr rfl
          · split
            · exact Or.inl rfl
            · exact Or.inl rfl
    · exact Or.inl rfl

theorem confidence_le_pickBetter_left (b c : LanguageDetectionResult) :
    b.confidence ≤ (pickBetter b c).confidence := by
  unfold pickBetter
  split
  · next h => exact le_of_lt h
  · split
    · next h =>
        split
        · exact le_of_eq h.symm
        · split
          · exact le_refl _
          · split
            · exact le_of_eq h.symm
            · split
              · exact le_refl _
              · exact le_refl _
    · exact le_refl _

theorem confidence_le_pickBetter_right (b c : LanguageDetectionResult) :
    c.confidence ≤ (pickBetter b c).confidence := by
  unfold pickBetter
  split
  · exact le_refl _
  · next hnlt =>
      split
      · next h =>
          split
          · exact le_refl _
          · split
            · exact le_of_eq h
            · split
              · exact le_refl _
              · split
                · exact le_of_eq h
                · exact le_of_eq h
      · exact le_of_not_lt hnlt

theorem foldl_pickBetter_mem (l : List LanguageDetectionResult)
    (init : LanguageDetectionResult) :
    l.foldl pickBetter init = init ∨ l.foldl pickBetter init ∈ l := by
  induction l generalizing init with
  | nil => exact Or.inl rfl
  | cons x xs ih =>
      rw [List.foldl_cons]
      rcases ih (pickBetter init x) with h | h
      · rw [h]
        rcases pickBetter_eq_or init x with h2 | h2
        · exact Or.inl h2
        · rw [h2]; exact Or.inr (List.mem_cons_self _ _)
      · exact Or.inr (List.mem_cons_of_mem _ h)

theorem confidence_init_le_foldl (l : List LanguageDetectionResult)
    (init : LanguageDetectionResult) :
    init.confidence ≤ (l.foldl pickBetter init).confidence := by
  induction l generalizing init with
  | nil => exact le_refl _
  | cons x xs ih =>
      rw [List.foldl_cons]
      exact le_trans (confidence_le_pickBetter_left init x)
        (ih (pickBetter init x))

theorem confidence_mem_le_foldl (l : List LanguageDetectionResult)
    (init : LanguageDetectionResult) :
    ∀ x ∈ l, x.confidence ≤ (l.foldl pickBetter init).confidence := by
  induction l generalizing init with
  | nil => intro x hx; cases hx
  | cons y ys ih =>
      intro x hx
      rw [List.foldl_cons]
      rcases List.mem_cons.1 hx with rfl | hx
      · exact le_trans (confidence_le_pickBetter_right init x)
          (confidence_init_le_foldl ys (pickBetter init x))
      · exact ih (pickBetter init y) x hx

theorem headD_mem {α : Type} {l : List α} (h : l ≠ []) (d : α) :
    l.headD d ∈ l := by
  match l with
  | [] => exact absurd rfl h
  | x :: t => exact List.mem_cons_self _ _

/-- C4: the orchestrator returns "unknown" with confidence 0 when no
detector produced a positive-confidence result; otherwise it picks, from
the valid-filtered set if non-empty and else from the full set, a member
of maximal confidence — uniquely the strictly best one — breaking exact
ties by preferring a truthy runtime version, then a truthy framework,
else keeping the accumulated first result. -/
theorem orchestrator_selection (rs : List LanguageDetectionResult) :
    (posResults rs = [] → selectBestResult rs = unknownResult) ∧
    (validResults rs ≠ [] →
      selectBestResult rs ∈ validResults rs ∧
        ∀ x ∈ validResults rs,
          x.confidence ≤ (selectBestResult rs).confidence) ∧
    (validResults rs = [] → posResults rs ≠ [] →
      selectBestResult rs ∈ posResults rs ∧
        ∀ x ∈ posResults rs,
          x.confidence ≤ (selectBestResult rs).confidence) ∧
    (∀ r ∈ validResults rs,
      (∀ x ∈ validResults rs, x ≠ r → x.confidence < r.confidence) →
      selectBestResult rs = r) ∧
    (∀ b c : LanguageDetectionResult, c.confidence = b.confidence →
      ((truthy c.runtimeVersion = true ∧ truthy b.runtimeVersion = false) →
        pickBetter b c = c) ∧
      ((truthy b.runtimeVersion = true ∧ truthy c.runtimeVersion = false) →
        pickBetter b c = b) ∧
      (truthy b.runtimeVersion = truthy c.runtimeVersion →
        truthy c.framework = true → truthy b.framework = false →
        pickBetter b c = c) ∧
      (truthy b.runtimeVersion = truthy c.runtimeVersion →
        truthy b.framework = truthy c.framework → pickBetter b c = b)) := by
  have hmemmax : validResults rs ≠ [] →
      selectBestResult rs ∈ validResults rs ∧
        ∀ x ∈ validResults rs,
          x.confidence ≤ (selectBestResult rs).confidence := by
    intro hv
    unfold selectBestResult
    rw [if_pos hv]
    constructor
    · rcases foldl_pickBetter_mem (validResults rs)
          ((validResults rs).headD unknownResult) with h | h
      · rw [h]; exact headD_mem hv _
      · exact h
    · exact confidence_mem_le_foldl _ _
  refine ⟨?_, hmemmax, ?_, ?_, ?_⟩
  · intro hpos
    unfold selectBestResult
    have hv : validResults rs = [] := by
      unfold validResults
      rw [hpos]
      rfl
    rw [if_neg (by simp [hv]), hpos]
    rfl
  · intro hv hpos
    unfold selectBestResult
    rw [if_neg (by simp [hv])]
    constructor
    · rcases foldl_pickBetter_mem (posResults rs)
          ((posResults rs).headD unknownResult) with h | h
      · rw [h]; exact headD_mem hpos _
      · exact h
    · exact confidence_mem_le_foldl _ _
  · intro r hr hstrict
    have hv : validResults rs ≠ [] := by
      intro h; rw [h] at hr; cases hr
    rcases hmemmax hv with ⟨hmem, hmax⟩
    by_contra hne
    exact absurd (hmax r hr) (not_le.2 (hstrict _ hmem hne))
  · intro b c hconf
    have hnlt : ¬ b.confidence < c.confidence := by rw [hconf]; exact lt_irrefl _
    refine ⟨?_, ?_, ?_, ?_⟩
    · rintro ⟨h1, h2⟩
      unfold pickBetter
      rw [if_neg hnlt, if_pos hconf, if_pos (by rw [h1, h2]; rfl)]
    · rintro ⟨h1, h2⟩
      unfold pickBetter
      rw [if_neg hnlt, if_pos hconf, if_neg (by rw [h1, h2]; simp),
        if_pos (by rw [h1, h2]; rfl)]
    · intro hrv h1 h2
      unfold pickBetter
      rw [if_neg hnlt, if_pos hconf,
        if_neg (by rw [← hrv]; cases truthy b.runtimeVersion <;> simp),
        if_neg (by rw [← hrv]; cases truthy b.runtimeVersion <;> simp),
        if_pos (by rw [h1, h2]; rfl)]
    · intro hrv hfw
      unfold pickBetter
      rw [if_neg hnlt, if_pos hconf,
        if_neg (by rw [← hrv]; cases truthy b.runtimeVersion <;> simp),
        if_neg (by rw [← hrv]; cases truthy b.runtimeVersion <;> simp),
        if_neg (by rw [← hfw]; cases truthy b.framework <;> simp),
        if_neg (by rw [← hfw]; cases truthy b.framework <;> simp)]

def bestSample : LanguageDetectionResult :=
  { language := "python", runtimeVersion := some "3.11", confidence := 0.8 }

def otherSample : LanguageDetectionResult :=
  { language := "go", confidence := 0.5 }

def resultListSample : List LanguageDetectionResult := [bestSample, otherSample]

theorem orchestrator_selection_witness :
    bestSample ∈ validResults resultListSample ∧
      selectBestResult resultListSample = bestSample := by
  have hval : validResults resultListSample = resultListSample := by
    unfold validResults posResults resultListSample isValidResult bestSample
      otherSample
    norm_num [List.filter]
  have hmem : bestSample ∈ validResults resultListSample := by
    rw [hval]
    exact List.mem_cons_self _ _
  refine ⟨hmem,
    (orchestrator_selection resultListSample).2.2.2.1 bestSample hmem ?_⟩
  intro x hx hne
  rw [hval] at hx
  rcases List.mem_cons.1 hx with rfl | hx
  · exact absurd rfl hne
  · rw [List.mem_singleton.1 hx]
    norm_num [otherSample, bestSample]

/-! ## Detection cache (cache/detectionCache.ts)

The filesystem directory holding one serialized entry per key is modelled
as a map from keys to entries; reading and writing an entry file is
lookup and update of that map (the JSON serialization round-trip is the
identity on the data). -/

structure CacheEntry (α : Type) where
  data : α
  timestamp : ℤ
  ttl : ℤ
deriving DecidableEq, Repr

def CacheStore (α : Type) : Type := String → Option (CacheEntry α)

/-- DetectionCache.set: store the entry under the key with the current
time as its timestamp. -/
def cacheSet {α : Type} (store : CacheStore α) (key : String) (d : α)
    (ttl now : ℤ) : CacheStore α :=
  fun k => if k = key then some ⟨d, now, ttl⟩ else store k

/-- Removal of the entry file, as done by DetectionCache.delete. -/
def cacheDelete {α : Type} (store : CacheStore α) (key : String) :
    CacheStore α :=
  fun k => if k = key then none else store k

/-- DetectionCache.get: absent keys yield null; an entry whose age
exceeds its ttl is deleted and yields null; otherwise the data is
returned.  The pair also carries the store after the call. -/
def cacheGet {α : Type} (store : CacheStore α) (key : String) (now : ℤ) :
    Option α × CacheStore α :=
  match store key with
  | none => (none, store)
  | some e =>
      if e.ttl < now - e.timestamp then (none, cacheDelete store key)
      else (some e.data, store)

/-- C6: a cached entry written with set is returned unchanged by get as
long as no more than ttl has elapsed since the stored timestamp, and
once more than ttl has passed, get returns null and the expired entry is
deleted from the store. -/
theorem cache_set_get_roundtrip {α : Type} (store : CacheStore α)
    (key : String) (d : α) (ttl now1 now2 : ℤ) :
    (now2 - now1 ≤ ttl →
      (cacheGet (cacheSet store key d ttl now1) key now2).1 = some d) ∧
    (ttl < now2 - now1 →
      (cacheGet (cacheSet store key d ttl now1) key now2).1 = none ∧
        (cacheGet (cacheSet store key d ttl now1) key now2).2 key = none) := by
  have hstore : cacheSet store key d ttl now1 key = some ⟨d, now1, ttl⟩ := by
    unfold cacheSet
    rw [if_pos rfl]
  constructor
  · intro h
    unfold cacheGet
    rw [hstore]
    simp only
    rw [if_neg (not_lt.2 h)]
  · intro h
    unfold cacheGet
    rw [hstore]
    simp only
    rw [if_pos h]
    exact ⟨rfl, by simp [cacheDelete]⟩

theorem cache_set_get_roundtrip_witness :
    ((5 : ℤ) - 0 ≤ 10 ∧
      (cacheGet (cacheSet (fun _ => none) "k" (42 : ℕ) 10 0) "k" 5).1 =
        some 42) ∧
    ((10 : ℤ) < 20 - 0 ∧
      (cacheGet (cacheSet (fun _ => none) "k" (42 : ℕ) 10 0) "k" 20).1 =
          none ∧
        (cacheGet (cacheSet (fun _ => none) "k" (42 : ℕ) 10 0) "k" 20).2 "k" =
          none) :=
  ⟨⟨by decide, (cache_set_get_roundtrip (fun _ => none) "k" 42 10 0 5).1
      (by decide)⟩,
    ⟨by decide, (cache_set_get_roundtrip (fun _ => none) "k" 42 10 0 20).2
      (by decide)⟩⟩

/-! ## Dependency model (get_dependencies/types.ts) -/

structure Dependency where
  name : String
  version : Option String := none
  versionConstraint : Option String := none
  type : String := "runtime"
  source : Option String := none
  sourceUrl : Option String := none
  extras : Option (List String) := none
  scope : Option String := none
deriving DecidableEq, Repr

/-! ## go.mod parser (parsers/gomodParser.ts) -/

/-- Attempt of the regex of GomodParser.parseRequireLine at one position:
the literal word followed by at least one whitespace, a maximal nonspace
run (the module path), and optionally more whitespace and a second
maximal nonspace run (the version). -/
def matchRequireAt (l : List Char) : Option (List Char × Option (List Char)) :=
  if l.take 7 = "require".data then
    let r := l.drop 7
    match r with
    | [] => none
    | c :: _ =>
        if c.isWhitespace then
          let r1 := r.dropWhile Char.isWhitespace
          let tok := r1.takeWhile fun ch => !ch.isWhitespace
          if tok = [] then none
          else
            let r2 := r1.dropWhile fun ch => !ch.isWhitespace
            let ver :=
              match r2 with
              | [] => none
              | c2 :: _ =>
                  if c2.isWhitespace then
                    let tok2 :=
                      (r2.dropWhile Char.isWhitespace).takeWhile
                        fun ch => !ch.isWhitespace
                    if tok2 = [] then none else some tok2
                  else none
            some (tok, ver)
        else none
  else none

/-- Leftmost successful position of the require regex. -/
def findRequireMatch : List Char → Option (List Char × Option (List Char))
  | [] => none
  | c :: rest =>
      match matchRequireAt (c :: rest) with
      | some r => some r
      | none => findRequireMatch rest

/-- GomodParser.parseRequireLine: the resolved version drops everything
from the first plus or dash on, while the raw constraint keeps the full
version string behind a double-equals prefix. -/
def parseRequireLine (line : String) : Option Dependency :=
  match findRequireMatch line.data with
  | none => none
  | some (modulePath, ver) =>
      some
        { name := String.mk modulePath,
          version :=
            ver.map fun v =>
              String.mk ((v.takeWhile (· ≠ '+')).takeWhile (· ≠ '-')),
          versionConstraint := ver.map fun v => String.mk ('=' :: '=' :: v),
          type := "runtime",
          source := some "registry" }

/-- C9: the go.mod require line with a plus-incompatible version resolves
to the bare semantic version while the raw constraint preserves the full
suffixed version string. -/
theorem gomod_incompatible_suffix :
    parseRequireLine "require github.com/foo/bar v1.2.3+incompatible" =
      some
        { name := "github.com/foo/bar",
          version := some "v1.2.3",
          versionConstraint := some "==v1.2.3+incompatible",
          type := "runtime",
          source := some "registry" } := by
  decide

/-! ## Base language detector (detectors/base.ts)

The pure core of BaseLanguageDetector.detect with the cache disabled:
the three analyzer result lists are parameters (they are produced by
filesystem scans), as are the two language-specific hooks. -/

/-- BaseLanguageDetector.detect after the analyzers ran: best-match-or-
first selection per evidence kind, evidence assembly with the fixed
weights, scoring, and hook-based version and framework extraction. -/
def detectCore (languageName : String)
    (extensionResults : List FileExtensionResult)
    (configResults : List ConfigFileResult)
    (sourceCodeResults : List SourceCodeResult)
    (extractRuntimeVersion : Option ConfigFileResult → Option String)
    (detectFramework :
      Option SourceCodeResult → Option ConfigFileResult → Option String) :
    LanguageDetectionResult :=
  let ev1 : List DetectionEvidence :=
    match extensionResults with
    | [] => []
    | x :: _ =>
        let matching :=
          (extensionResults.find? fun r => r.language == languageName).getD x
        if 0 < matching.count then [⟨0.4, .fileExtension matching⟩] else []
  let ev2 : List DetectionEvidence :=
    match configResults with
    | [] => ev1
    | x :: _ =>
        ev1 ++
          [⟨0.7, .configFile
            ((configResults.find? fun r => r.language == languageName).getD
              x)⟩]
  let ev3 : List DetectionEvidence :=
    match sourceCodeResults with
    | [] => ev2
    | x :: _ =>
        let matching :=
          (sourceCodeResults.find? fun r => r.language == languageName).getD x
        if matching.patterns ≠ [] then ev2 ++ [⟨0.3, .sourceCode matching⟩]
        else ev2
  let bestConfig :=
    match configResults with
    | [] => none
    | x :: _ =>
        some ((configResults.find? fun r => r.language == languageName).getD x)
  let bestSourceCode :=
    match sourceCodeResults with
    | [] => none
    | x :: _ =>
        some
          ((sourceCodeResults.find? fun r => r.language == languageName).getD x)
  { language := languageName,
    runtimeVersion := extractRuntimeVersion bestConfig,
    framework := detectFramework bestSourceCode bestConfig,
    confidence := calculateConfidenceScore ev3 }

/-- C10: a detector's result always carries the detector's own canonical
language name, whatever the analyzers observed — including evidence
injected by the first-element fallback that names other languages. -/
theorem detect_returns_own_language (languageName : String)
    (extensionResults : List FileExtensionResult)
    (configResults : List ConfigFileResult)
    (sourceCodeResults : List SourceCodeResult)
    (extractRuntimeVersion : Option ConfigFileResult → Option String)
    (detectFramework :
      Option SourceCodeResult → Option ConfigFileResult → Option String) :
    (detectCore languageName extensionResults configResults sourceCodeResults
        extractRuntimeVersion detectFramework).language = languageName := rfl

/-! ## File extension analyzer (analyzers/fileExtensionAnalyzer.ts) -/

/-- The analyzer's extension-to-language table. -/
def extensionMap : List (String × String) :=
  [(".py", "python"), (".js", "javascript"), (".ts", "typescript"),
   (".jsx", "react"), (".tsx", "react-typescript"), (".java", "java"),
   (".rb", "ruby"), (".go", "go"), (".rs", "rust"), (".php", "php"),
   (".cs", "csharp"), (".vb", "vbnet"), (".swift", "swift"),
   (".kt", "kotlin"), (".scala", "scala"), (".dart", "dart"),
   (".cpp", "cpp"), (".c", "c"), (".h", "c"), (".hpp", "cpp"),
   (".cc", "cpp"), (".cxx", "cpp"), (".m", "objective-c"),
   (".mm", "objective-c++"), (".sh", "shell"), (".bash", "shell"),
   (".ps1", "powershell"), (".r", "r"), (".sql", "sql"), (".html", "html"),
   (".css", "css"), (".scss", "scss"), (".sass", "sass"), (".less", "less"),
   (".xml", "xml"), (".json", "json"), (".yaml", "yaml"), (".yml", "yaml"),
   (".toml", "toml"), (".md", "markdown"), (".vue", "vue"),
   (".svelte", "svelte")]

def lookupExtensionLanguage (ext : String) : String :=
  ((extensionMap.find? fun kv => kv.1 == ext).map (·.2)).getD "unknown"

/-- The analyzer's getFileExtension: the last dot-delimited segment with
the dot, lowercased; null when there is no dot or the dot is last. -/
def fileGetExtension (filePath : String) : Option String :=
  let l := filePath.data
  if l.contains '.' then
    let tail := (l.reverse.takeWhile (· ≠ '.')).reverse
    if tail = [] then none
    else some (String.mk (('.' :: tail).map Char.toLower))
  else none

/-- JS String.prototype.split on a single separator character. -/
def splitOnChar (sep : Char) : List Char → List (List Char)
  | [] => [[]]
  | c :: rest =>
      let r := splitOnChar sep rest
      if c = sep then [] :: r
      else
        match r with
        | s :: t => (c :: s) :: t
        | [] => [[c]]

def skipDirectories : List String :=
  ["node_modules", ".git", ".vscode", ".idea", "dist", "build", "target",
   "bin", "out", "coverage", ".next", ".nuxt", "vendor", "__pycache__"]

def skipExtensions : List String :=
  [".lock", ".log", ".tmp", ".cache", ".map", ".min.js", ".min.css"]

/-- The analyzer's shouldSkipFile: build-artifact directory segments and
build-artifact filename suffixes. -/
def shouldSkipFile (filePath : String) : Bool :=
  let normalized := filePath.data.map fun c => if c = '\\' then '/' else c
  let segments := splitOnChar '/' normalized
  if skipDirectories.any fun d => segments.contains d.data then true
  else
    let fileName := segments.getLastD []
    let lower := fileName.map Char.toLower
    skipExtensions.any fun ext => ext.data.isSuffixOf lower

/-- Increment the count of a key, keeping JS object insertion order. -/
def bumpCount : List (String × Nat) → String → List (String × Nat)
  | [], e => [(e, 1)]
  | (k, v) :: rest, e =>
      if k = e then (k, v + 1) :: rest else (k, v) :: bumpCount rest e

/-- One iteration of the analyzer's counting loop. -/
def countStep (target : Option (List String))
    (acc : List (String × Nat) × Nat) (file : String) :
    List (String × Nat) × Nat :=
  if shouldSkipFile file then acc
  else
    match fileGetExtension file with
    | none => acc
    | some ext =>
        if (match target with
            | none => true
            | some ts => ts.contains ext) then
          (bumpCount acc.1 ext, acc.2 + 1)
        else acc

def countExtensions (files : List String) (target : Option (List String)) :
    List (String × Nat) × Nat :=
  files.foldl (countStep target) ([], 0)

/-- Math.round to two decimal places. -/
def round2 (q : ℚ) : ℚ := (round (q * 100) : ℚ) / 100

/-- FileExtensionAnalyzer.analyze on an already-listed project tree. -/
def analyzeExtensions (files : List String) (target : Option (List String)) :
    List FileExtensionResult :=
  let c := countExtensions files target
  let results := c.1.map fun kv =>
    { extension := kv.1, count := kv.2,
      percentage :=
        round2 (if 0 < c.2 then ((kv.2 : ℚ) / (c.2 : ℚ)) * 100 else 0),
      language := lookupExtensionLanguage kv.1 : FileExtensionResult }
  results.mergeSort fun a b => decide (b.count ≤ a.count)

/-- Whether a file is counted: it passes the skip rules, has an
extension, and matches the target filter. -/
def countedFile (target : Option (List String)) (f : String) : Bool :=
  !shouldSkipFile f &&
    (match fileGetExtension f with
     | none => false
     | some ext =>
         match target with
         | none => true
         | some ts => ts.contains ext)

theorem countStep_total (target : Option (List String))
    (acc : List (String × Nat) × Nat) (f : String) :
    (countStep target acc f).2 =
      acc.2 + (if countedFile target f then 1 else 0) := by
  unfold countStep countedFile
  by_cases hs : shouldSkipFile f
  · simp [hs]
  · cases hex : fileGetExtension f with
    | none => simp [hs, hex]
    | some ext =>
        cases target with
        | none => simp [hs, hex]
        | some ts =>
            by_cases ht : ext ∈ ts
            · simp [hs, hex, ht]
            · simp [hs, hex, ht]

theorem countExtensions_total_aux (target : Option (List String))
    (files : List String) (acc : List (String × Nat) × Nat) :
    (files.foldl (countStep target) acc).2 =
      acc.2 + (files.filter (countedFile target)).length := by
  induction files generalizing acc with
  | nil => simp
  | cons f fs ih =>
      rw [List.foldl_cons, ih, countStep_total]
      by_cases hc : countedFile target f
      · simp only [List.filter_cons, hc, if_pos, List.length_cons]
        omega
      · simp [List.filter_cons, hc]

/-- The scanned total is the number of files passing the filter and the
skip rules. -/
theorem countExtensions_total (files : List String)
    (target : Option (List String)) :
    (countExtensions files target).2 =
      (files.filter (countedFile target)).length := by
  unfold countExtensions
  rw [countExtensions_total_aux]
  simp

theorem countStep_pos (target : Option (List String))
    (acc : List (String × Nat) × Nat) (f : String)
    (h : acc.1 ≠ [] → 0 < acc.2) :
    (countStep target acc f).1 ≠ [] → 0 < (countStep target acc f).2 := by
  unfold countStep
  by_cases hs : shouldSkipFile f
  · rw [if_pos hs]; exact h
  · rw [if_neg hs]
    cases hex : fileGetExtension f with
    | none => exact h
    | some ext =>
        cases target with
        | none => intro _; simp
        | some ts =>
            by_cases ht : ext ∈ ts
            · intro _
              simp [ht]
            · simpa [ht] using h

theorem countExtensions_pos_aux (target : Option (List String))
    (files : List String) (acc : List (String × Nat) × Nat)
    (h : acc.1 ≠ [] → 0 < acc.2) :
    (files.foldl (countStep target) acc).1 ≠ [] →
      0 < (files.foldl (countStep target) acc).2 := by
  induction files generalizing acc with
  | nil => exact h
  | cons f fs ih =>
      rw [List.foldl_cons]
      exact ih _ (countStep_pos target acc f h)

theorem countExtensions_pos (files : List String)
    (target : Option (List String))
    (h : (countExtensions files target).1 ≠ []) :
    0 < (countExtensions files target).2 :=
  countExtensions_pos_aux target files ([], 0) (by intro hc; exact absurd rfl hc) h

/-- C7: with a target filter active, every produced observation carries a
percentage computed against the filtered scanned total (the number of
files passing the filter and the skip rules), rounded to two decimals,
and the output is sorted by count descending. -/
theorem file_extension_analyzer_spec (files : List String) (ts : List String)
    (_h : ts ≠ []) :
    ((countExtensions files (some ts)).2 =
        (files.filter (countedFile (some ts))).length) ∧
    (∀ obs ∈ analyzeExtensions files (some ts),
        obs.percentage =
          round2 (((obs.count : ℚ) /
            ((countExtensions files (some ts)).2 : ℚ)) * 100)) ∧
    List.Pairwise (fun a b => b.count ≤ a.count)
      (analyzeExtensions files (some ts)) := by
  refine ⟨countExtensions_total files (some ts), ?_, ?_⟩
  · intro obs hobs
    unfold analyzeExtensions at hobs
    rw [(List.mergeSort_perm _ _).mem_iff] at hobs
    rcases List.mem_map.1 hobs with ⟨kv, hkv, rfl⟩
    have hne : (countExtensions files (some ts)).1 ≠ [] := by
      intro hnil
      rw [hnil] at hkv
      cases hkv
    have hpos := countExtensions_pos files (some ts) hne
    simp only [if_pos hpos]
  · unfold analyzeExtensions
    have hs : List.Pairwise
        (fun a b : FileExtensionResult => decide (b.count ≤ a.count) = true)
        (List.mergeSort
          ((countExtensions files (some ts)).1.map fun kv =>
            { extension := kv.1, count := kv.2,
              percentage :=
                round2 (if 0 < (countExtensions files (some ts)).2 then
                  ((kv.2 : ℚ) /
                    ((countExtensions files (some ts)).2 : ℚ)) * 100
                else 0),
              language := lookupExtensionLanguage kv.1 : FileExtensionResult })
          fun a b => decide (b.count ≤ a.count)) :=
      List.sorted_mergeSort
        (fun a b c h1 h2 => by
          simp only [decide_eq_true_eq] at h1 h2 ⊢
          omega)
        (fun a b => by
          simp only [Bool.or_eq_true, decide_eq_true_eq]
          omega)
        _
    exact hs.imp fun hab => by simpa using hab

theorem file_extension_analyzer_spec_witness :
    ([".py"] : List String) ≠ [] ∧
      (((countExtensions ["a.py", "b.py", "c.js"] (some [".py"])).2 =
          ((["a.py", "b.py", "c.js"] : List String).filter
            (countedFile (some [".py"]))).length) ∧
        (∀ obs ∈ analyzeExtensions ["a.py", "b.py", "c.js"] (some [".py"]),
            obs.percentage =
              round2 (((obs.count : ℚ) /
                ((countExtensions ["a.py", "b.py", "c.js"]
                  (some [".py"])).2 : ℚ)) * 100)) ∧
        List.Pairwise (fun a b => b.count ≤ a.count)
          (analyzeExtensions ["a.py", "b.py", "c.js"] (some [".py"]))) :=
  ⟨by decide,
    file_extension_analyzer_spec ["a.py", "b.py", "c.js"] [".py"] (by decide)⟩

/-! ## requirements.txt line parser (parsers/requirementsParser.ts) -/

/-- JS String.prototype.trim on a character list. -/
def trimChars (l : List Char) : List Char :=
  ((l.dropWhile Char.isWhitespace).reverse.dropWhile Char.isWhitespace).reverse

/-- RequirementsParser.parseLine's first step: cut the line at the first
hash and trim; a line without a hash is left untouched. -/
def stripInlineCommentChars (l : List Char) : List Char :=
  if l.contains '#' then trimChars (l.takeWhile (· ≠ '#')) else l

def stripInlineComment (s : String) : String :=
  String.mk (stripInlineCommentChars s.data)

/-- Leftmost nonempty egg-name group of the url-dependency regex. -/
def findEgg : List Char → Option (List Char)
  | [] => none
  | c :: rest =>
      if "#egg=".data.isPrefixOf (c :: rest) then
        let name := ((c :: rest).drop 5).takeWhile (· ≠ '&')
        if name = [] then findEgg rest else some name
      else findEgg rest

/-- RequirementsParser.parseUrlDependency. -/
def parseUrlDependency (l : List Char) : Option Dependency :=
  some
    { name :=
        match findEgg l with
        | some n => String.mk n
        | none => "unknown",
      type := "runtime", source := some "git",
      sourceUrl := some (String.mk l) }

/-- Removal of a leading editable-install flag and the whitespace run
after it, under the same guard as the source. -/
def stripEditable (l : List Char) : List Char :=
  if "-e ".data.isPrefixOf l then (l.drop 2).dropWhile Char.isWhitespace
  else if "--editable ".data.isPrefixOf l then
    (l.drop 10).dropWhile Char.isWhitespace
  else l

/-- The anchored extras regex: a nonempty bracket-free prefix, an opening
bracket, a nonempty closing-bracket-free group, and a closing bracket. -/
def extrasMatch (l : List Char) : Option (List Char × List Char) :=
  let p1 := l.takeWhile (· ≠ '[')
  if p1 = [] then none
  else
    match l.dropWhile (· ≠ '[') with
    | '[' :: rest =>
        let p2 := rest.takeWhile (· ≠ ']')
        if p2 = [] then none
        else
          match rest.dropWhile (· ≠ ']') with
          | ']' :: _ => some (p1, p2)
          | _ => none
    | _ => none

/-- A character allowed in the package-name group of the version regex:
anything but whitespace and the operator characters. -/
def isNameChar (c : Char) : Bool :=
  !(c.isWhitespace || c = '=' || c = '<' || c = '>' || c = '!' || c = '~')

/-- The operator alternation of the version regex, tried in source
order. -/
def matchOp (l : List Char) : Option (List Char × List Char) :=
  if ['=', '='].isPrefixOf l then some (['=', '='], l.drop 2)
  else if ['>', '='].isPrefixOf l then some (['>', '='], l.drop 2)
  else if ['<', '='].isPrefixOf l then some (['<', '='], l.drop 2)
  else if ['>'].isPrefixOf l then some (['>'], l.drop 1)
  else if ['<'].isPrefixOf l then some (['<'], l.drop 1)
  else if ['!', '='].isPrefixOf l then some (['!', '='], l.drop 2)
  else if ['~', '='].isPrefixOf l then some (['~', '='], l.drop 2)
  else none

/-- The anchored version-constraint regex: name group, optional
whitespace, operator, then greedy optional whitespace followed by a
nonempty line-terminator-free rest-of-line group. -/
def versionSpec (l : List Char) : Option (List Char × List Char × List Char) :=
  let name := l.takeWhile isNameChar
  if name = [] then none
  else
    let r1 := (l.drop name.length).dropWhile Char.isWhitespace
    match matchOp r1 with
    | none => none
    | some (op, r2) =>
        if r2 = [] then none
        else
          let j := min (r2.takeWhile Char.isWhitespace).length (r2.length - 1)
          let tail := r2.drop j
          if tail.all fun c => c ≠ '\n' ∧ c ≠ '\r' then some (name, op, tail)
          else none

/-- RequirementsParser.parseLine after the comment strip. -/
def parseCleanLine (l : List Char) : Option Dependency :=
  if l = [] then none
  else if "git+".data.isPrefixOf l || "http://".data.isPrefixOf l ||
      "https://".data.isPrefixOf l then
    parseUrlDependency l
  else
    let l2 := stripEditable l
    let parts := splitOnChar ';' l2
    let marker :=
      match parts with
      | _ :: m :: _ => some (trimChars m)
      | _ => none
    let mainPart := trimChars (parts.headD [])
    let em := extrasMatch mainPart
    let packagePart :=
      match em with
      | some pe => pe.1
      | none => mainPart
    let extras :=
      em.map fun pe => (splitOnChar ',' pe.2).map fun e => String.mk (trimChars e)
    match versionSpec packagePart with
    | some (name, op, tail) =>
        some
          { name := String.mk (trimChars name),
            versionConstraint := some (String.mk (op ++ trimChars tail)),
            version :=
              if op = ['=', '='] then some (String.mk (trimChars tail))
              else none,
            type := "runtime", source := some "registry",
            extras := extras,
            sourceUrl :=
              match marker with
              | some m =>
                  if m = [] then none
                  else some (String.mk ("marker:".data ++ m))
              | none => none }
    | none =>
        let name2 := packagePart.takeWhile isNameChar
        if name2 = [] then none
        else
          some
            { name := String.mk (trimChars name2), type := "runtime",
              source := some "registry", extras := extras }

/-- RequirementsParser.parseLine. -/
def parseLine (line : String) : Option Dependency :=
  parseCleanLine (stripInlineCommentChars line.data)

theorem mem_trimChars {c : Char} {l : List Char} (h : c ∈ trimChars l) :
    c ∈ l := by
  unfold trimChars at h
  rw [List.mem_reverse] at h
  have h2 := (List.dropWhile_sublist Char.isWhitespace).subset h
  rw [List.mem_reverse] at h2
  exact (List.dropWhile_sublist Char.isWhitespace).subset h2

theorem stripInlineCommentChars_idem (l : List Char) :
    stripInlineCommentChars (stripInlineCommentChars l) =
      stripInlineCommentChars l := by
  unfold stripInlineCommentChars
  by_cases h : l.contains '#'
  · rw [if_pos h]
    rw [if_neg ?_]
    intro hc
    have hmem := mem_trimChars (List.elem_iff.1 hc)
    have := List.mem_takeWhile_imp hmem
    simp at this
  · rw [if_neg h, if_neg h]

theorem matchOp_cases {l op r : List Char} (h : matchOp l = some (op, r)) :
    op = ['=', '='] ∨ op = ['>', '='] ∨ op = ['<', '='] ∨ op = ['>'] ∨
      op = ['<'] ∨ op = ['!', '='] ∨ op = ['~', '='] := by
  unfold matchOp at h
  split at h
  · exact Or.inl (by cases h; rfl)
  · split at h
    · exact Or.inr (Or.inl (by cases h; rfl))
    · split at h
      · exact Or.inr (Or.inr (Or.inl (by cases h; rfl)))
      · split at h
        · exact Or.inr (Or.inr (Or.inr (Or.inl (by cases h; rfl))))
        · split at h
          · exact Or.inr (Or.inr (Or.inr (Or.inr (Or.inl (by cases h; rfl)))))
          · split at h
            · exact Or.inr (Or.inr (Or.inr (Or.inr (Or.inr (Or.inl
                (by cases h; rfl))))))
            · split at h
              · exact Or.inr (Or.inr (Or.inr (Or.inr (Or.inr (Or.inr
                  (by cases h; rfl))))))
              · cases h

theorem versionSpec_op (l name op tail : List Char)
    (h : versionSpec l = some (name, op, tail)) :
    op = ['=', '='] ∨ op = ['>', '='] ∨ op = ['<', '='] ∨ op = ['>'] ∨
      op = ['<'] ∨ op = ['!', '='] ∨ op = ['~', '='] := by
  unfold versionSpec at h
  dsimp only at h
  split at h
  · cases h
  · split at h
    · cases h
    · next op2 r2 hmo =>
        split at h
        · cases h
        · split at h
          · cases h
            exact matchOp_cases hmo
          · cases h

theorem mk_ne_of_head_ne {a : Char} {rest cs : List Char} (ha : a ≠ '=') :
    String.mk (a :: rest) ≠ String.mk ('=' :: '=' :: cs) := by
  intro h
  have h2 : a :: rest = '=' :: '=' :: cs := congrArg String.data h
  injection h2 with h3 h4
  exact ha h3

theorem parseCleanLine_version_iff (l : List Char) (dep : Dependency)
    (h : parseCleanLine l = some dep) :
    (∃ v, dep.version = some v) ↔
      ∃ cs, dep.versionConstraint = some (String.mk ('=' :: '=' :: cs)) := by
  unfold parseCleanLine at h
  split at h
  · cases h
  · split at h
    · unfold parseUrlDependency at h
      cases h
      simp
    · dsimp only at h
      split at h
      · next name op tail hvs =>
          cases h
          dsimp only
          rcases versionSpec_op _ _ _ _ hvs with h1|h1|h1|h1|h1|h1|h1
          · subst h1
            constructor
            · intro _
              exact ⟨trimChars tail, rfl⟩
            · intro _
              rw [if_pos rfl]
              exact ⟨String.mk (trimChars tail), rfl⟩
          all_goals
            subst h1
            exact iff_of_false
              (by rintro ⟨v, hv⟩; rw [if_neg (by decide)] at hv; cases hv)
              (by
                rintro ⟨cs, hcs⟩
                exact mk_ne_of_head_ne (by decide) (Option.some_inj.1 hcs))
      · split at h
        · cases h
        · cases h
          simp

/-- C8: the pinned requests line parses to the expected dependency with
the inline comment stripped; in general parseLine is invariant under
first removing the inline hash comment, and the exact version field is
populated exactly when the raw constraint starts with the
double-equals operator. -/
theorem requirements_parseLine_spec (line : String) :
    parseLine "requests==2.31.0  # pinned" =
      some
        { name := "requests", version := some "2.31.0",
          versionConstraint := some "==2.31.0", type := "runtime",
          source := some "registry" } ∧
    parseLine line = parseLine (stripInlineComment line) ∧
    ∀ dep, parseLine line = some dep →
      ((∃ v, dep.version = some v) ↔
        ∃ cs, dep.versionConstraint = some (String.mk ('=' :: '=' :: cs))) := by
  refine ⟨by decide, ?_, ?_⟩
  · unfold parseLine stripInlineComment
    rw [show (String.mk (stripInlineCommentChars line.data)).data =
      stripInlineCommentChars line.data from rfl]
    rw [stripInlineCommentChars_idem]
  · intro dep h
    exact parseCleanLine_version_iff _ dep h

/-- The dependency produced for a greater-or-equal constraint line, used
as the witness input. -/
def sampleGeDep : Dependency :=
  { name := "pkg", versionConstraint := some ">=1.0", type := "runtime",
    source := some "registry" }

theorem requirements_parseLine_spec_witness :
    parseLine "pkg>=1.0" = some sampleGeDep ∧
      ((∃ v, sampleGeDep.version = some v) ↔
        ∃ cs, sampleGeDep.versionConstraint =
          some (String.mk ('=' :: '=' :: cs))) :=
  ⟨by decide,
    (requirements_parseLine_spec "pkg>=1.0").2.2 sampleGeDep (by decide)⟩

/-! ## Source-code analyzer content detection (sourceCodeAnalyzer.ts)

The per-language tables of characteristic JavaScript regular expressions
are embedded through a small backtracking regex engine over character
lists: character classes, concatenation, greedy star and word
boundaries, with global non-overlapping match counting as performed by
String.prototype.match with the g flag. -/

inductive Rgx where
  | cls (p : Char → Bool)
  | seq (a b : Rgx)
  | star (r : Rgx)
  | wb

def isWordChar (c : Char) : Bool := c.isAlphanum || c == '_'

def isWordOpt : Option Char → Bool
  | none => false
  | some c => isWordChar c

def wordBoundary (prev : Option Char) (s : List Char) : Bool :=
  isWordOpt prev != isWordOpt s.head?

/-- Greedy star: alternatives with more iterations come first; every
iteration must consume at least one character, as in ECMAScript. -/
def starAux (m : Option Char → List Char → List (Option Char × List Char)) :
    Nat → Option Char → List Char → List (Option Char × List Char)
  | 0, prev, s => [(prev, s)]
  | Nat.succ fuel, prev, s =>
      (((m prev s).filter fun pr => pr.2.length < s.length).flatMap
        fun pr => starAux m fuel pr.1 pr.2) ++ [(prev, s)]

/-- All ways to match a regex at the head of the suffix, in backtracking
priority order; each alternative carries the character preceding the
remaining suffix so that word boundaries can be tested. -/
def matchR : Rgx → Option Char → List Char → List (Option Char × List Char)
  | .cls _, _, [] => []
  | .cls p, _, c :: rest => if p c then [(some c, rest)] else []
  | .seq a b, prev, s => (matchR a prev s).flatMap fun pr => matchR b pr.1 pr.2
  | .wb, prev, s => if wordBoundary prev s then [(prev, s)] else []
  | .star r, prev, s => starAux (matchR r) s.length prev s

/-- Global match counting: at each position take the priority-first
match if any, count it, and continue after its end (one character
further on an empty match). -/
def scanCount (r : Rgx) : Nat → Option Char → List Char → Nat
  | 0, _, _ => 0
  | Nat.succ fuel, prev, s =>
      match (matchR r prev s).head? with
      | some pr =>
          if pr.2.length < s.length then 1 + scanCount r fuel pr.1 pr.2
          else
            match s with
            | [] => 1
            | c :: rest => 1 + scanCount r fuel (some c) rest
      | none =>
          match s with
          | [] => 0
          | c :: rest => scanCount r fuel (some c) rest

def countMatches (r : Rgx) (s : List Char) : Nat :=
  scanCount r (s.length + 1) none s

def rchr (c : Char) : Rgx := .cls fun x => x == c

def rcat (l : List Rgx) : Rgx :=
  match l with
  | [] => .star (.cls fun _ => false)
  | r :: rs => rs.foldl Rgx.seq r

def rstr (s : String) : Rgx := rcat (s.data.map rchr)

def rws : Rgx := .cls Char.isWhitespace

def rplus (r : Rgx) : Rgx := .seq r (.star r)

/-- The dot of a JavaScript regex: anything but a line terminator. -/
def rdot : Rgx := .cls fun c => !(c == '\n' || c == '\r')

def idQ : Rgx := .cls fun c => c.isAlphanum || c == '_'

def idDotQ : Rgx := .cls fun c => c.isAlphanum || c == '_' || c == '.'

def alnumDotQ : Rgx := .cls fun c => c.isAlphanum || c == '.'

def idColonQ : Rgx := .cls fun c => c.isAlphanum || c == '_' || c == ':'

def idBackslashQ : Rgx := .cls fun c => c.isAlphanum || c == '_' || c == '\\'

def quoteQ : Rgx := .cls fun c => c == '"' || c == '\''

def notQuoteQ : Rgx := .cls fun c => !(c == '"' || c == '\'')

def wordQ : Rgx := .cls isWordChar

def pythonPatterns : List Rgx :=
  [rcat [.wb, rstr "import", rplus rws, rplus idDotQ, .wb],
   rcat [.wb, rstr "def", rplus rws, rplus idQ, .star rws, rchr '('],
   rcat [.wb, rstr "class", rplus rws, rplus idQ, .star rws, rchr ':'],
   rcat [.wb, rstr "if", rplus rws, rstr "__name__", .star rws, rstr "==",
     .star rws, quoteQ, rstr "__main__", quoteQ]]

def javascriptPatterns : List Rgx :=
  [rcat [.wb, rstr "function", rplus rws, rplus idQ, .star rws, rchr '('],
   rcat [.wb, rstr "const", rplus rws, rplus idQ, .star rws, rchr '='],
   rcat [.wb, rstr "let", rplus rws, rplus idQ, .star rws, rchr '='],
   rcat [.wb, rstr "var", rplus rws, rplus idQ, .star rws, rchr '='],
   rcat [.wb, rstr "require", .star rws, rchr '('],
   rcat [.wb, rstr "import", rplus rws, .star rdot, .wb, rstr "from", .wb]]

def typescriptPatterns : List Rgx :=
  [rcat [.wb, rstr "interface", rplus rws, rplus idQ, .star rws, rchr '\x7b'],
   rcat [.wb, rstr "type", rplus rws, rplus idQ, .star rws, rchr '='],
   rcat [.wb, rstr "enum", rplus rws, rplus idQ, .star rws, rchr '\x7b'],
   rcat [.wb, rstr "implements", rplus rws, rplus idQ, .wb],
   rcat [.wb, rstr "public", rplus rws, rstr "class", .wb],
   rcat [.wb, rstr "private", rplus rws, rstr "class", .wb]]

def javaPatterns : List Rgx :=
  [rcat [.wb, rstr "public", rplus rws, rstr "class", rplus rws, rplus idQ,
     .wb],
   rcat [.wb, rstr "import", rplus rws, rstr "java", rchr '.',
     rplus alnumDotQ],
   rcat [.wb, rstr "package", rplus rws, rplus idDotQ, .wb],
   rcat [rchr '@', rplus wordQ]]

def rubyPatterns : List Rgx :=
  [rcat [.wb, rstr "require", rplus rws, quoteQ, rplus notQuoteQ, quoteQ],
   rcat [.wb, rstr "class", rplus rws, rplus idQ, .wb],
   rcat [.wb, rstr "def", rplus rws, rplus idQ, .wb],
   rcat [.wb, rstr "module", rplus rws, rplus idQ, .wb],
   rcat [.wb, rstr "end", .wb]]

def goPatterns : List Rgx :=
  [rcat [.wb, rstr "package", rplus rws, rplus idQ, .wb],
   rcat [.wb, rstr "import", rplus rws, rchr '('],
   rcat [.wb, rstr "func", rplus rws, rplus idQ, .star rws, rchr '('],
   rcat [.wb, rstr "type", rplus rws, rplus idQ, rplus rws, rstr "struct",
     .wb],
   rcat [.wb, rstr "var", rplus rws, rplus idQ, rplus rws],
   rcat [.wb, rstr "const", rplus rws, rplus idQ, rplus rws]]

def rustPatterns : List Rgx :=
  [rcat [.wb, rstr "use", rplus rws, rplus idColonQ, rstr "::"],
   rcat [.wb, rstr "fn", rplus rws, rplus idQ, .star rws, rchr '('],
   rcat [.wb, rstr "struct", rplus rws, rplus idQ, .star rws, rchr '\x7b'],
   rcat [.wb, rstr "enum", rplus rws, rplus idQ, .star rws, rchr '\x7b'],
   rcat [.wb, rstr "impl", rplus rws, rplus idQ, rplus rws, rstr "for", .wb],
   rcat [.wb, rstr "pub", rplus rws, rstr "fn", rplus rws, rstr "main", .wb]]

def phpPatterns : List Rgx :=
  [rstr "<?php",
   rcat [.wb, rstr "function", rplus rws, rplus idQ, .star rws, rchr '('],
   rcat [.wb, rstr "class", rplus rws, rplus idQ, rplus rws],
   rcat [.wb, rstr "namespace", rplus rws, rplus idBackslashQ, rchr ';'],
   rcat [rchr '$', rplus idQ, .star rws, rchr '='],
   rcat [.wb, rstr "use", rplus rws, rplus idBackslashQ, rchr ';']]

def csharpPatterns : List Rgx :=
  [rcat [.wb, rstr "using", rplus rws, rplus alnumDotQ, rchr ';'],
   rcat [.wb, rstr "namespace", rplus rws, rplus idDotQ, .wb],
   rcat [.wb, rstr "public", rplus rws, rstr "class", rplus rws, rplus idQ,
     .wb],
   rcat [.wb, rstr "private", rplus rws, rstr "class", rplus rws, rplus idQ,
     .wb],
   rcat [.wb, rstr "static", rplus rws, rstr "void", rplus rws, rstr "Main",
     .wb],
   rcat [.wb, rstr "public", rplus rws, rstr "static", rplus rws,
     rstr "void", rplus rws, rstr "Main", .wb]]

/-- The languagePatterns table of detectLanguageFromContent, in source
order. -/
def languagePatterns : List (String × List Rgx) :=
  [("python", pythonPatterns), ("javascript", javascriptPatterns),
   ("typescript", typescriptPatterns), ("java", javaPatterns),
   ("ruby", rubyPatterns), ("go", goPatterns), ("rust", rustPatterns),
   ("php", phpPatterns), ("csharp", csharpPatterns)]

/-- Total number of pattern matches one language's table accumulates. -/
def scoreOf (content : List Char) (pats : List Rgx) : Nat :=
  pats.foldl (fun score p => score + countMatches p content) 0

/-- The scores record, in table iteration order. -/
def languageScores (content : String) : List (String × Nat) :=
  languagePatterns.map fun lp => (lp.1, scoreOf content.data lp.2)

/-- The final argmax loop of detectLanguageFromContent: starting from
"unknown" with score 0, take a language only when its score strictly
exceeds the best so far. -/
def pickLanguage (scores : List (String × Nat)) : String :=
  (scores.foldl (fun acc p => if acc.2 < p.2 then p else acc)
    ("unknown", 0)).1

/-- The source-code analyzer's extension map. -/
def sourceExtensionMap : List (String × String) :=
  [(".py", "python"), (".js", "javascript"), (".ts", "typescript"),
   (".jsx", "react"), (".tsx", "react-typescript"), (".java", "java"),
   (".rb", "ruby"), (".go", "go"), (".rs", "rust"), (".php", "php"),
   (".cs", "csharp")]

def getLanguageFromExtension (ext : String) : String :=
  ((sourceExtensionMap.find? fun kv => kv.1 == ext).map (·.2)).getD "unknown"

/-- The source-code analyzer's getFileExtension (empty string when there
is no usable extension). -/
def sourceGetFileExtension (filePath : String) : String :=
  let l := filePath.data
  if l.contains '.' then
    let tail := (l.reverse.takeWhile (· ≠ '.')).reverse
    if tail = [] then "" else String.mk (('.' :: tail).map Char.toLower)
  else ""

/-- SourceCodeAnalyzer.detectLanguageFromContent: extension first, and
content-pattern scoring when the extension is missing or unknown. -/
def detectLanguageFromContent (content filePath : String) : String :=
  let ext := sourceGetFileExtension filePath
  if ext ≠ "" ∧ getLanguageFromExtension ext ≠ "unknown" then
    getLanguageFromExtension ext
  else pickLanguage (languageScores content)

theorem pickLanguage_post (lang : String) (s : Nat)
    (post : List (String × Nat)) (h : ∀ p ∈ post, p.2 ≤ s) :
    post.foldl (fun acc p => if acc.2 < p.2 then p else acc) (lang, s) =
      (lang, s) := by
  induction post with
  | nil => rfl
  | cons p rest ih =>
      rw [List.foldl_cons,
        if_neg (not_lt.2 (h p (List.mem_cons_self _ _)))]
      exact ih fun q hq => h q (List.mem_cons_of_mem _ hq)

theorem pickLanguage_pre (s : Nat) (pre : List (String × Nat))
    (acc : String × Nat) (hacc : acc.2 < s) (h : ∀ p ∈ pre, p.2 < s) :
    (pre.foldl (fun acc p => if acc.2 < p.2 then p else acc) acc).2 < s := by
  induction pre generalizing acc with
  | nil => exact hacc
  | cons p rest ih =>
      rw [List.foldl_cons]
      by_cases hp : acc.2 < p.2
      · rw [if_pos hp]
        exact ih p (h p (List.mem_cons_self _ _))
          fun q hq => h q (List.mem_cons_of_mem _ hq)
      · rw [if_neg hp]
        exact ih acc hacc fun q hq => h q (List.mem_cons_of_mem _ hq)

theorem pickLanguage_first_max (lang : String) (s : Nat)
    (pre post : List (String × Nat)) (hpre : ∀ p ∈ pre, p.2 < s)
    (hpost : ∀ p ∈ post, p.2 ≤ s) (hpos : 0 < s) :
    pickLanguage (pre ++ (lang, s) :: post) = lang := by
  unfold pickLanguage
  rw [List.foldl_append, List.foldl_cons,
    if_pos (pickLanguage_pre s pre ("unknown", 0) hpos hpre),
    pickLanguage_post lang s post hpost]

theorem pickLanguage_all_zero (scores : List (String × Nat))
    (h : ∀ p ∈ scores, p.2 = 0) : pickLanguage scores = "unknown" := by
  unfold pickLanguage
  rw [pickLanguage_post "unknown" 0 scores fun p hp => le_of_eq (h p hp)]

/-- C5 (amended): when the file extension is missing or unknown, the
language whose pattern table accumulates the strictly most matches is
returned; when several languages tie for a positive maximal total, the
one earliest in the fixed table order wins (not "unknown"), and
"unknown" is returned when every language's total is zero. -/
theorem source_content_detection (content filePath lang : String) (s : Nat)
    (pre post : List (String × Nat))
    (hext :
      getLanguageFromExtension (sourceGetFileExtension filePath) =
        "unknown") :
    (languageScores content = pre ++ (lang, s) :: post →
      (∀ p ∈ pre, p.2 < s) → (∀ p ∈ post, p.2 ≤ s) → 0 < s →
      detectLanguageFromContent content filePath = lang) ∧
    ((∀ p ∈ languageScores content, p.2 = 0) →
      detectLanguageFromContent content filePath = "unknown") := by
  have hbranch : detectLanguageFromContent content filePath =
      pickLanguage (languageScores content) := by
    unfold detectLanguageFromContent
    by_cases hne : sourceGetFileExtension filePath = ""
    · rw [if_neg]
      rintro ⟨h1, _⟩
      exact h1 hne
    · rw [if_neg]
      rintro ⟨_, h2⟩
      exact h2 hext
  constructor
  · intro hdecomp hpre hpost hpos
    rw [hbranch, hdecomp]
    exact pickLanguage_first_max lang s pre post hpre hpost hpos
  · intro hz
    rw [hbranch]
    exact pickLanguage_all_zero _ hz

/-- C5 counterexample: on the extension-less file content "def foo(",
python and ruby tie for the strictly most pattern matches (one each,
every other language zero), yet the result is "python" — tied maxima do
not default to "unknown". -/
theorem source_content_tie_counterexample :
    ("python", 1) ∈ languageScores "def foo(" ∧
      ("ruby", 1) ∈ languageScores "def foo(" ∧
      (∀ p ∈ languageScores "def foo(", p.2 ≤ 1) ∧
      detectLanguageFromContent "def foo(" "file" = "python" := by
  decide

theorem source_content_detection_witness :
    getLanguageFromExtension (sourceGetFileExtension "file") = "unknown" ∧
      languageScores "def foo(" =
        [] ++ ("python", 1) ::
          [("javascript", 0), ("typescript", 0), ("java", 0), ("ruby", 1),
           ("go", 0), ("rust", 0), ("php", 0), ("csharp", 0)] ∧
      detectLanguageFromContent "def foo(" "file" = "python" :=
  ⟨by decide, by decide,
    (source_content_detection "def foo(" "file" "python" 1 []
        [("javascript", 0), ("typescript", 0), ("java", 0), ("ruby", 1),
         ("go", 0), ("rust", 0), ("php", 0), ("csharp", 0)]
        (by decide)).1
      (by decide) (by decide) (by decide) (by decide)⟩

end DepFinder
